import Mathlib

/-!
Verification of the Kuramoto-coupled LFO engine (`coupled_lfo.h`) of the
AudioNoise repository.

The phase arithmetic of the source (`u32` counters) is embedded as natural
numbers reduced modulo `2^32`; C `float` arithmetic is embedded as exact real
arithmetic.  The quarter-wave sine table `quarter_sin`, the constant
`QUARTER_SINE_STEP_SHIFT`, the helper `u32_to_fraction` and the oscillator
primitive `lfo_state` / `lfo_step` live in `lfo.h` / `util.h`, which are not
among the sources available here; those are modelled from the specification
and marked as such below.  Everything else is transcribed from
`coupled_lfo.h`.
-/

namespace AudioNoise

open Real Finset

/-- `2^32`, the modulus of the `u32` phase accumulators. -/
def M : ℕ := 2 ^ 32

/-- Modelled from the spec (§4.2): the constant `QUARTER_SINE_STEP_SHIFT`
from `lfo.h` is absent from the sources; the spec fixes only the `1e-4`
accuracy contract and leaves the table resolution an implementation choice.
We model a `2^15`-interval quarter-wave table. -/
def QUARTER_SINE_STEP_SHIFT : ℕ := 15

/-- Number of table intervals covering one quarter period. -/
def QN : ℕ := 2 ^ QUARTER_SINE_STEP_SHIFT

/-- Modelled from the spec (§4.2): the quarter-period sine table
`quarter_sin` from `lfo.h` is absent from the sources; entry `i` holds the
sine of `i / QN` quarter turns.  (The concrete table holds `float`
approximations of these values; float rounding is not modelled.) -/
noncomputable def quarter_sin (i : ℕ) : ℝ := Real.sin (i * (π / 2) / QN)

/-- Modelled from the spec: `u32_to_fraction` from `lfo.h` / `util.h` maps a
`u32` to the fraction of the full range it covers, in `[0, 1)`. -/
noncomputable def u32_to_fraction (x : ℕ) : ℝ := ((x % M : ℕ) : ℝ) / (M : ℝ)

/-- Transcription of `phase_sin` from `coupled_lfo.h`: table sine of a raw
`u32` phase.  The top two bits select the quadrant; `quarter % 2 = 1` is the
C test `quarter & 1`, and `2 ≤ quarter` is `quarter & 2` (the quadrant index
is two bits wide), `phase <<= 2` is `* 4 % M`, `~phase` is `M - 1 - phase`,
and the right/left shifts around the table lookup are the division and the
multiplication by the matching powers of two. -/
noncomputable def phase_sin (phase : ℕ) : ℝ :=
  let p := phase % M
  let quarter := p / 2 ^ 30
  let p1 := p * 4 % M
  let p2 := if quarter % 2 = 1 then M - 1 - p1 else p1
  let idx := p2 / 2 ^ (32 - QUARTER_SINE_STEP_SHIFT)
  let a := quarter_sin idx
  let b := quarter_sin (idx + 1)
  let p3 := p2 * 2 ^ QUARTER_SINE_STEP_SHIFT % M
  let val := a + (b - a) * u32_to_fraction p3
  if 2 ≤ quarter then -val else val

/-- Transcription of `phase_cos` from `coupled_lfo.h`:
`cos(phase) = sin(phase + π/2)`, the quarter turn `2^30` added with wrapping
`u32` arithmetic.  No separate cosine table exists. -/
noncomputable def phase_cos (phase : ℕ) : ℝ := phase_sin ((phase + 2 ^ 30) % M)

/-- Modelled from the spec (§3): `struct lfo_state` from `lfo.h` is absent
from the sources.  `idx` is the `u32` phase accumulator, `step` the `u32`
per-sample increment. -/
structure lfo_state where
  idx : ℕ
  step : ℕ
deriving DecidableEq

/-- The waveform selector `enum lfo_type` (spec §4.1). -/
inductive lfo_type where
  | lfo_sinewave
  | lfo_triangle
  | lfo_sawtooth
deriving DecidableEq

/-- Modelled from the spec (§4.1): waveform readout at a phase, without
mutation.  Sine uses the lookup table; triangle is piecewise linear with
range `[-1, 1]`, symmetric about zero; sawtooth is a linear ramp over one
period with range `[0, 1)`. -/
noncomputable def lfo_readout (phase : ℕ) : lfo_type → ℝ
  | .lfo_sinewave => phase_sin phase
  | .lfo_triangle => 1 - 4 * |((phase % M : ℕ) : ℝ) / (M : ℝ) - 1 / 2|
  | .lfo_sawtooth => ((phase % M : ℕ) : ℝ) / (M : ℝ)

/-- Modelled from the spec (§4.1, §4.3 step 3): `lfo_step` from `lfo.h`
advances the phase by the increment (wrapping) and returns the waveform
readout at the advanced phase, together with the updated oscillator. -/
noncomputable def lfo_step (l : lfo_state) (t : lfo_type) : lfo_state × ℝ :=
  let l2 : lfo_state := { l with idx := (l.idx + l.step) % M }
  (l2, lfo_readout l2.idx t)

/-- `MAX_COUPLED_LFOS` from `coupled_lfo.h`. -/
def MAX_COUPLED_LFOS : ℕ := 8

/-- Transcription of `struct coupled_lfo_group` from `coupled_lfo.h`.  The C
`lfos` field is a fixed array of `MAX_COUPLED_LFOS = 8` oscillators; it is
modelled as a total function, indices `≥ 8` being out of bounds in C (caller
contract, spec §4.3 / §7; the claims below only touch `count ≤ 8`). -/
structure coupled_lfo_group where
  lfos : ℕ → lfo_state
  count : ℕ
  coupling : ℝ

/-- Wrapping `u32` subtraction `a - b`, as used for the phase difference
`g->lfos[j].idx - lfo->idx` in `coupled_lfo_step`. -/
def phase_diff (a b : ℕ) : ℕ := (a % M + (M - b % M)) % M

/-- The C cast `(s32)` applied to a `float`: truncation toward zero. -/
noncomputable def c_trunc (r : ℝ) : ℤ := if 0 ≤ r then ⌊r⌋ else ⌈r⌉

/-- The coupling loop of `coupled_lfo_step`:
`sum = Σ_{j < count, j ≠ idx} phase_sin(lfos[j].idx - lfos[idx].idx)`. -/
noncomputable def coupling_sum (g : coupled_lfo_group) (idx : ℕ) : ℝ :=
  ∑ j ∈ (Finset.range g.count).erase idx,
    phase_sin (phase_diff (g.lfos j).idx (g.lfos idx).idx)

/-- Transcription of `coupled_lfo_step` from `coupled_lfo.h`.  When
`coupling > 0` and `count > 1`, the oscillator's phase first receives the
truncated coupling adjustment `lfo->idx += (s32)(adj * lfo->step)`; then the
oscillator is stepped as a standalone LFO.  The state effect (the write
through `lfo` into `g->lfos[idx]`) is made explicit. -/
noncomputable def coupled_lfo_step (g : coupled_lfo_group) (idx : ℕ)
    (t : lfo_type) : coupled_lfo_group × ℝ :=
  let lfo := g.lfos idx
  let lfo1 : lfo_state :=
    if 0 < g.coupling ∧ 1 < g.count then
      let adj := g.coupling * coupling_sum g idx / (g.count : ℝ)
      { lfo with
        idx := (((lfo.idx : ℤ) + c_trunc (adj * (lfo.step : ℝ))) % (M : ℤ)).toNat }
    else lfo
  let res := lfo_step lfo1 t
  ({ g with lfos := Function.update g.lfos idx res.1 }, res.2)

/-- Transcription of `coupled_lfo_order_parameter` from `coupled_lfo.h`. -/
noncomputable def coupled_lfo_order_parameter (g : coupled_lfo_group) : ℝ :=
  if g.count = 0 then 0
  else
    let cs := (∑ i ∈ Finset.range g.count, phase_cos (g.lfos i).idx) / (g.count : ℝ)
    let sn := (∑ i ∈ Finset.range g.count, phase_sin (g.lfos i).idx) / (g.count : ℝ)
    Real.sqrt (cs * cs + sn * sn)

/-- State-passing form of the order parameter: the C function receives the
group by pointer and contains no store to it, so its state effect is the
identity. -/
noncomputable def coupled_lfo_order_parameter_call (g : coupled_lfo_group) :
    coupled_lfo_group × ℝ := (g, coupled_lfo_order_parameter g)

/-- Round to nearest (half up): the reading of `round` in claim C1. -/
noncomputable def c_round (r : ℝ) : ℤ := ⌊r + 1 / 2⌋

/-- The phase that claim C1, read literally, predicts for oscillator `idx`
after one coupled step: the coupling applies whenever `coupling ≠ 0` and
`count ≥ 2`, and the extra advance is `round(adjustment * increment)`. -/
noncomputable def claimC1_phase (g : coupled_lfo_group) (idx : ℕ) : ℕ :=
  if g.coupling ≠ 0 ∧ 2 ≤ g.count then
    ((((g.lfos idx).idx : ℤ) + ((g.lfos idx).step : ℤ)
        + c_round (g.coupling * coupling_sum g idx / (g.count : ℝ)
            * ((g.lfos idx).step : ℝ)))
      % (M : ℤ)).toNat
  else ((g.lfos idx).idx + (g.lfos idx).step) % M

/-! ### Structural lemmas about the step -/

/-- When the coupling guard `coupling > 0 && count > 1` fails, the step is the
standalone step of slot `idx`. -/
lemma coupled_lfo_step_uncoupled (g : coupled_lfo_group) (idx : ℕ) (t : lfo_type)
    (h : ¬(0 < g.coupling ∧ 1 < g.count)) :
    coupled_lfo_step g idx t
      = ({ g with lfos := Function.update g.lfos idx (lfo_step (g.lfos idx) t).1 },
         (lfo_step (g.lfos idx) t).2) := by
  simp only [coupled_lfo_step, if_neg h]

/-- Concrete two-oscillator group with zero coupling, for the C2 witness. -/
noncomputable def gW2 : coupled_lfo_group := ⟨fun _ => ⟨0, 5⟩, 2, 0⟩

/-- Concrete two-oscillator group with negative coupling, for the C10
witness. -/
noncomputable def gW10 : coupled_lfo_group := ⟨fun _ => ⟨7, 5⟩, 2, -1⟩

/-- C2: with `coupling == 0` or `count <= 1`, `coupled_lfo_step` returns the
same output as stepping a standalone oscillator with the same increment and
waveform, leaves slot `idx` in the identical phase state, and leaves every
other slot untouched (so the other members' frequencies have no effect). -/
theorem claim_C2 (g : coupled_lfo_group) (idx : ℕ) (t : lfo_type)
    (h : g.coupling = 0 ∨ g.count ≤ 1) (hidx : idx < g.count) (hcap : g.count ≤ 8) :
    (coupled_lfo_step g idx t).2 = (lfo_step (g.lfos idx) t).2
      ∧ (coupled_lfo_step g idx t).1.lfos idx = (lfo_step (g.lfos idx) t).1
      ∧ ∀ j, j ≠ idx → (coupled_lfo_step g idx t).1.lfos j = g.lfos j := by
  have hng : ¬(0 < g.coupling ∧ 1 < g.count) := by
    rcases h with h | h
    · exact fun hc => absurd hc.1 (by rw [h]; exact lt_irrefl 0)
    · exact fun hc => absurd hc.2 (by omega)
  rw [coupled_lfo_step_uncoupled g idx t hng]
  refine ⟨rfl, ?_, ?_⟩
  · simp
  · intro j hj
    simp [Function.update_noteq hj]

/-- C2 witness: the zero-coupling group `gW2` at index 0. -/
theorem claim_C2_witness :
    (gW2.coupling = 0 ∨ gW2.count ≤ 1) ∧ 0 < gW2.count ∧ gW2.count ≤ 8 ∧
      (coupled_lfo_step gW2 0 .lfo_sinewave).2 = (lfo_step (gW2.lfos 0) .lfo_sinewave).2 :=
  ⟨Or.inl rfl, by norm_num [gW2], by norm_num [gW2],
    (claim_C2 gW2 0 _ (Or.inl rfl) (by norm_num [gW2]) (by norm_num [gW2])).1⟩

/-- C10 (implicit): the guard is `coupling > 0`, not `coupling != 0`, so a
group with strictly negative coupling skips the coupling computation and
behaves exactly like a standalone oscillator. -/
theorem claim_C10 (g : coupled_lfo_group) (idx : ℕ) (t : lfo_type)
    (h : g.coupling < 0) (hidx : idx < g.count) (hcap : g.count ≤ 8) :
    (coupled_lfo_step g idx t).2 = (lfo_step (g.lfos idx) t).2
      ∧ (coupled_lfo_step g idx t).1.lfos idx = (lfo_step (g.lfos idx) t).1
      ∧ ∀ j, j ≠ idx → (coupled_lfo_step g idx t).1.lfos j = g.lfos j := by
  have hng : ¬(0 < g.coupling ∧ 1 < g.count) := fun hc => absurd hc.1 (by linarith)
  rw [coupled_lfo_step_uncoupled g idx t hng]
  refine ⟨rfl, ?_, ?_⟩
  · simp
  · intro j hj
    simp [Function.update_noteq hj]

/-- C10 witness: the negative-coupling group `gW10` at index 0. -/
theorem claim_C10_witness :
    gW10.coupling < 0 ∧ 0 < gW10.count ∧ gW10.count ≤ 8 ∧
      (coupled_lfo_step gW10 0 .lfo_sinewave).2 = (lfo_step (gW10.lfos 0) .lfo_sinewave).2 :=
  ⟨by norm_num [gW10], by norm_num [gW10], by norm_num [gW10],
    (claim_C10 gW10 0 _ (by norm_num [gW10]) (by norm_num [gW10]) (by norm_num [gW10])).1⟩

/-- C9 (implicit): one coupled step writes only the phase of slot `idx`:
every other slot is untouched, the stepped slot's increment is kept, and the
group's `count` and `coupling` are unchanged. -/
theorem claim_C9 (g : coupled_lfo_group) (idx : ℕ) (t : lfo_type)
    (hidx : idx < g.count) (hcap : g.count ≤ 8) :
    (∀ j, j ≠ idx → (coupled_lfo_step g idx t).1.lfos j = g.lfos j)
      ∧ ((coupled_lfo_step g idx t).1.lfos idx).step = (g.lfos idx).step
      ∧ (coupled_lfo_step g idx t).1.count = g.count
      ∧ (coupled_lfo_step g idx t).1.coupling = g.coupling := by
  refine ⟨?_, ?_, rfl, rfl⟩
  · intro j hj
    simp [coupled_lfo_step, Function.update_noteq hj]
  · simp only [coupled_lfo_step, lfo_step, Function.update_same]
    split <;> rfl

/-- C9 witness: a concrete coupled group, stepped at index 1. -/
theorem claim_C9_witness :
    (1 : ℕ) < gW10.count ∧ gW10.count ≤ 8 ∧
      (coupled_lfo_step gW10 1 .lfo_triangle).1.count = gW10.count :=
  ⟨by norm_num [gW10], by norm_num [gW10],
    (claim_C9 gW10 1 _ (by norm_num [gW10]) (by norm_num [gW10])).2.2.1⟩

/-- C7: the order parameter is a pure read: its state effect is the identity,
so interleaving it with stepping at any cadence changes neither the group
state, a subsequent step, nor its own repeated value. -/
theorem claim_C7 (g : coupled_lfo_group) :
    (coupled_lfo_order_parameter_call g).1 = g
      ∧ (coupled_lfo_order_parameter_call g).2 = coupled_lfo_order_parameter g
      ∧ (∀ idx t, coupled_lfo_step ((coupled_lfo_order_parameter_call g).1) idx t
          = coupled_lfo_step g idx t)
      ∧ coupled_lfo_order_parameter ((coupled_lfo_order_parameter_call g).1)
          = coupled_lfo_order_parameter g :=
  ⟨rfl, rfl, fun _ _ => rfl, rfl⟩

/-- Reducing the phase mod `2^32` does not change `phase_sin`. -/
lemma phase_sin_mod (p : ℕ) : phase_sin (p % M) = phase_sin p := by
  simp only [phase_sin, Nat.mod_mod_of_dvd _ dvd_rfl]

/-- C8: the table cosine is the table sine a quarter turn (`2^30`) later,
with wrapping 32-bit addition (the wrap is also harmless, since the sine
lookup is itself periodic in the 32-bit phase); no separate cosine table
exists. -/
theorem claim_C8 (p : ℕ) :
    phase_cos p = phase_sin ((p + 2 ^ 30) % M)
      ∧ phase_cos p = phase_sin (p + 2 ^ 30) := by
  constructor
  · rfl
  · rw [phase_cos]
    exact phase_sin_mod (p + 2 ^ 30)

/-! ### The quarter-wave interpolation and its accuracy -/

/-- Sine is 1-Lipschitz. -/
lemma sin_dist (x y : ℝ) : |Real.sin x - Real.sin y| ≤ |x - y| := by
  rw [Real.sin_sub_sin]
  calc |2 * Real.sin ((x - y) / 2) * Real.cos ((x + y) / 2)|
      = 2 * |Real.sin ((x - y) / 2)| * |Real.cos ((x + y) / 2)| := by
        rw [abs_mul, abs_mul, abs_two]
    _ ≤ 2 * |(x - y) / 2| * 1 := by
        have h1 := Real.abs_sin_le_abs (x := (x - y) / 2)
        have h2 := Real.abs_cos_le_one ((x + y) / 2)
        have h3 : (0:ℝ) ≤ 2 * |Real.sin ((x - y) / 2)| := by positivity
        nlinarith [abs_nonneg ((x - y) / 2), abs_nonneg (Real.sin ((x - y) / 2))]
    _ = |x - y| := by rw [abs_div, abs_two]; ring

/-- Cosine is 1-Lipschitz. -/
lemma cos_dist (x y : ℝ) : |Real.cos x - Real.cos y| ≤ |x - y| := by
  rw [Real.cos_sub_cos]
  calc |-2 * Real.sin ((x + y) / 2) * Real.sin ((x - y) / 2)|
      = 2 * |Real.sin ((x + y) / 2)| * |Real.sin ((x - y) / 2)| := by
        rw [abs_mul, abs_mul]; norm_num
    _ ≤ 2 * 1 * |(x - y) / 2| := by
        have h1 := Real.abs_sin_le_abs (x := (x - y) / 2)
        have h2 := Real.abs_sin_le_one ((x + y) / 2)
        nlinarith [abs_nonneg ((x - y) / 2), abs_nonneg (Real.sin ((x + y) / 2))]
    _ = |x - y| := by rw [abs_div, abs_two]; ring

/-- The linear interpolation into the quarter-wave table at "inner" phase
`x < 2^32` (the value the quadrant logic of `phase_sin` feeds the table):
table index is the top 15 bits, interpolation fraction the remaining 17. -/
noncomputable def quarter_interp (x : ℕ) : ℝ :=
  quarter_sin (x / 2 ^ 17)
    + (quarter_sin (x / 2 ^ 17 + 1) - quarter_sin (x / 2 ^ 17))
      * (((x % 2 ^ 17 : ℕ) : ℝ) / 2 ^ 17)

/-- The exact angle, in radians, that inner phase `x` stands for:
`x / 2^32` quarter turns. -/
noncomputable def qangle (x : ℕ) : ℝ := (x : ℝ) * (π / 2) / 2 ^ 32

/-- The table-lookup part of `phase_sin` computes `quarter_interp`. -/
lemma interp_unfold (x : ℕ) (hx : x < M) :
    quarter_sin (x / 2 ^ (32 - QUARTER_SINE_STEP_SHIFT))
      + (quarter_sin (x / 2 ^ (32 - QUARTER_SINE_STEP_SHIFT) + 1)
          - quarter_sin (x / 2 ^ (32 - QUARTER_SINE_STEP_SHIFT)))
        * u32_to_fraction (x * 2 ^ QUARTER_SINE_STEP_SHIFT % M)
      = quarter_interp x := by
  have e1 : 32 - QUARTER_SINE_STEP_SHIFT = 17 := rfl
  have e2 : x * 2 ^ QUARTER_SINE_STEP_SHIFT % M = x % 2 ^ 17 * 2 ^ 15 := by
    simp only [QUARTER_SINE_STEP_SHIFT, M] at *
    omega
  rw [e1, e2]
  unfold quarter_interp u32_to_fraction
  have e3 : x % 2 ^ 17 * 2 ^ 15 % M = x % 2 ^ 17 * 2 ^ 15 := by
    simp only [M] at *
    omega
  rw [e3]
  have e4 : ((x % 2 ^ 17 * 2 ^ 15 : ℕ) : ℝ) / (M : ℝ)
      = ((x % 2 ^ 17 : ℕ) : ℝ) / 2 ^ 17 := by
    have hMR : (M : ℝ) = 2 ^ 32 := by norm_num [M]
    rw [hMR]
    push_cast
    ring
  rw [e4]

/-- `phase_sin`, decomposed by quadrant: sign from the top bit of the
quadrant index, reflection (`~phase`) in the odd quadrants. -/
lemma phase_sin_quadrant (q u : ℕ) (hq : q < 4) (hu : u < 2 ^ 30) :
    phase_sin (q * 2 ^ 30 + u)
      = (if 2 ≤ q then (-1 : ℝ) else 1)
          * quarter_interp (if q % 2 = 1 then M - 1 - 4 * u else 4 * u) := by
  have h1 : (q * 2 ^ 30 + u) % M = q * 2 ^ 30 + u := by simp only [M]; omega
  have h2 : (q * 2 ^ 30 + u) / 2 ^ 30 = q := by omega
  have h3 : (q * 2 ^ 30 + u) * 4 % M = 4 * u := by simp only [M]; omega
  have h4u : 4 * u < M := by simp only [M]; omega
  have hsub : M - 1 - 4 * u < M := by simp only [M]; omega
  simp only [phase_sin]
  rw [h1, h2, h3]
  by_cases hpar : q % 2 = 1
  · rw [if_pos hpar, interp_unfold _ hsub]
    split_ifs <;> ring
  · rw [if_neg hpar, interp_unfold _ h4u]
    split_ifs <;> ring

/-- `phase_sin` at an arbitrary in-range phase, in quadrant form. -/
lemma phase_sin_eq (p : ℕ) (hp : p < M) :
    phase_sin p
      = (if 2 ≤ p / 2 ^ 30 then (-1 : ℝ) else 1)
          * quarter_interp
              (if (p / 2 ^ 30) % 2 = 1 then M - 1 - 4 * (p % 2 ^ 30)
               else 4 * (p % 2 ^ 30)) := by
  have h := phase_sin_quadrant (p / 2 ^ 30) (p % 2 ^ 30)
    (by simp only [M] at hp; omega) (Nat.mod_lt _ (by norm_num))
  have harg : p / 2 ^ 30 * 2 ^ 30 + p % 2 ^ 30 = p := by omega
  rw [harg] at h
  exact h

/-- Reducing the phase mod `2^32` does not change `phase_cos`. -/
lemma phase_cos_mod (p : ℕ) : phase_cos (p % M) = phase_cos p := by
  simp only [phase_cos, Nat.mod_add_mod]

set_option maxHeartbeats 1000000 in
/-- Bounds for the table interpolation against the exact sine of the angle
the inner phase denotes: the value is nonnegative, below the exact sine
(linear interpolation of a concave function), and within `π / 2^17`
of it (the chord stays within `2 t (1-t) h ≤ h/2` of the arc for a
1-Lipschitz function over cells of width `h = π / 2^16`). -/
lemma quarter_interp_bounds (x : ℕ) (hx : x < M) :
    0 ≤ quarter_interp x ∧ quarter_interp x ≤ Real.sin (qangle x)
      ∧ |quarter_interp x - Real.sin (qangle x)| ≤ π / 2 ^ 17 := by
  simp only [M] at hx
  set i := x / 2 ^ 17 with hidef
  set r := x % 2 ^ 17 with hrdef
  have hi : i < 2 ^ 15 := by omega
  have hr : r < 2 ^ 17 := by omega
  have hx' : x = i * 2 ^ 17 + r := by omega
  set A : ℝ := (i : ℝ) * (π / 2) / 2 ^ 15 with hAdef
  set B : ℝ := ((i : ℝ) + 1) * (π / 2) / 2 ^ 15 with hBdef
  set t : ℝ := (r : ℝ) / 2 ^ 17 with htdef
  have ht0 : 0 ≤ t := by positivity
  have ht1 : t ≤ 1 := by
    rw [htdef, div_le_one (by norm_num)]
    exact_mod_cast hr.le
  have hA0 : 0 ≤ A := by positivity
  have hABstep : B = A + π / 2 ^ 16 := by rw [hAdef, hBdef]; ring
  have hB2 : B ≤ π / 2 := by
    have hi1 : ((i : ℝ) + 1) ≤ 2 ^ 15 := by exact_mod_cast hi
    calc B = ((i : ℝ) + 1) * (π / 2 / 2 ^ 15) := by rw [hBdef]; ring
      _ ≤ 2 ^ 15 * (π / 2 / 2 ^ 15) := by
          apply mul_le_mul_of_nonneg_right hi1
          positivity
      _ = π / 2 := by field_simp; ring
  have hpi := Real.pi_pos
  have hq16 : (0:ℝ) ≤ π / 2 ^ 16 := by positivity
  have hAπ : A ≤ π := by linarith
  have hBπ : B ≤ π := by linarith
  have hgamma : qangle x = A + t * (π / 2 ^ 16) := by
    have hc : (x : ℝ) = (i : ℝ) * 2 ^ 17 + (r : ℝ) := by exact_mod_cast hx'
    rw [qangle, hc, hAdef, htdef]
    ring
  have heq : quarter_interp x
      = (1 - t) * Real.sin A + t * Real.sin B := by
    rw [quarter_interp, quarter_sin, quarter_sin]
    have hQN : (QN : ℝ) = 2 ^ 15 := by norm_num [QN, QUARTER_SINE_STEP_SHIFT]
    rw [← hidef, ← hrdef, ← htdef]
    push_cast [hQN]
    rw [← hAdef, ← hBdef]
    ring
  have hsA : 0 ≤ Real.sin A := Real.sin_nonneg_of_nonneg_of_le_pi hA0 hAπ
  have hsB : 0 ≤ Real.sin B := Real.sin_nonneg_of_nonneg_of_le_pi (by positivity) hBπ
  have hth0 : 0 ≤ t * (π / 2 ^ 16) := mul_nonneg ht0 hq16
  have hth1 : t * (π / 2 ^ 16) ≤ 1 * (π / 2 ^ 16) :=
    mul_le_mul_of_nonneg_right ht1 hq16
  have hγA : A ≤ qangle x := by rw [hgamma]; linarith
  have hγB : qangle x ≤ B := by rw [hgamma, hABstep]; linarith
  refine ⟨?_, ?_, ?_⟩
  · rw [heq]
    have g1 := mul_nonneg (by linarith : (0:ℝ) ≤ 1 - t) hsA
    have g2 := mul_nonneg ht0 hsB
    linarith
  · have hconc := strictConcaveOn_sin_Icc.concaveOn.2
      (Set.mem_Icc.mpr ⟨hA0, hAπ⟩) (Set.mem_Icc.mpr ⟨by positivity, hBπ⟩)
      (by linarith : (0:ℝ) ≤ 1 - t) ht0 (by ring)
    simp only [smul_eq_mul] at hconc
    have harg : (1 - t) * A + t * B = qangle x := by
      rw [hgamma, hABstep]; ring
    rw [heq]
    rw [harg] at hconc
    exact hconc
  · have key : quarter_interp x - Real.sin (qangle x)
        = (1 - t) * (Real.sin A - Real.sin (qangle x))
          + t * (Real.sin B - Real.sin (qangle x)) := by
      rw [heq]; ring
    have hdA : |Real.sin A - Real.sin (qangle x)| ≤ t * (π / 2 ^ 16) := by
      refine le_trans (sin_dist _ _) ?_
      rw [abs_of_nonpos (by linarith : A - qangle x ≤ 0), hgamma]
      linarith
    have hdB : |Real.sin B - Real.sin (qangle x)| ≤ (1 - t) * (π / 2 ^ 16) := by
      refine le_trans (sin_dist _ _) ?_
      rw [abs_of_nonneg (by linarith : 0 ≤ B - qangle x), hgamma, hABstep]
      have hexp : (1 - t) * (π / 2 ^ 16) = π / 2 ^ 16 - t * (π / 2 ^ 16) := by ring
      rw [hexp]
      linarith
    rw [key]
    calc |(1 - t) * (Real.sin A - Real.sin (qangle x))
            + t * (Real.sin B - Real.sin (qangle x))|
        ≤ |(1 - t) * (Real.sin A - Real.sin (qangle x))|
            + |t * (Real.sin B - Real.sin (qangle x))| := abs_add _ _
      _ = (1 - t) * |Real.sin A - Real.sin (qangle x)|
            + t * |Real.sin B - Real.sin (qangle x)| := by
          rw [abs_mul, abs_mul, abs_of_nonneg (by linarith), abs_of_nonneg ht0]
      _ ≤ (1 - t) * (t * (π / 2 ^ 16)) + t * ((1 - t) * (π / 2 ^ 16)) := by
          have g1 := mul_le_mul_of_nonneg_left hdA (by linarith : (0:ℝ) ≤ 1 - t)
          have g2 := mul_le_mul_of_nonneg_left hdB ht0
          linarith
      _ = t * (1 - t) * (2 * (π / 2 ^ 16)) := by ring
      _ ≤ 1 / 4 * (2 * (π / 2 ^ 16)) := by
          have htt : t * (1 - t) ≤ 1 / 4 := by nlinarith [sq_nonneg (2 * t - 1)]
          have hpp : (0:ℝ) ≤ 2 * (π / 2 ^ 16) := by positivity
          exact mul_le_mul_of_nonneg_right htt hpp
      _ = π / 2 ^ 17 := by ring

/-- Exact angle, in radians, of a `u32` phase: `p / 2^32` full turns. -/
noncomputable def exact_angle (p : ℕ) : ℝ := (p : ℝ) / (M : ℝ) * (2 * π)

/-- The reflection behind the odd quadrants: complementing the inner phase
(`~` in the source) realizes the mirror angle up to the `π / 2^33`
granularity of one inner-phase step. -/
lemma qangle_complement (v : ℕ) (hv : v < M) :
    qangle (M - 1 - v) = π / 2 - (qangle v + π / 2 ^ 33) := by
  have e : (M - 1 - v : ℕ) = M - (1 + v) := by omega
  have hle : 1 + v ≤ M := by omega
  rw [qangle, qangle, e, Nat.cast_sub hle]
  have hMR : ((M : ℕ) : ℝ) = 2 ^ 32 := by norm_num [M]
  rw [hMR]
  push_cast
  ring

set_option maxHeartbeats 1000000 in
/-- Accuracy of the table sine over a full turn: within
`π / 2^17 + π / 2^33 < 1e-4` of the exact sine. -/
lemma phase_sin_accuracy (p : ℕ) (hp : p < M) :
    |phase_sin p - Real.sin (exact_angle p)| ≤ π / 2 ^ 17 + π / 2 ^ 33 := by
  have hp' : p < 2 ^ 32 := hp
  obtain ⟨q, u, hq, hu, rfl⟩ :
      ∃ q u, q < 4 ∧ u < 2 ^ 30 ∧ p = q * 2 ^ 30 + u :=
    ⟨p / 2 ^ 30, p % 2 ^ 30, by omega, by omega, by omega⟩
  rw [phase_sin_quadrant q u hq hu]
  have h4u : 4 * u < M := by simp only [M]; omega
  have hsub : M - 1 - 4 * u < M := by simp only [M]; omega
  have hβ : exact_angle (q * 2 ^ 30 + u) = (q : ℝ) * (π / 2) + qangle (4 * u) := by
    rw [exact_angle, qangle]
    have hMR : ((M : ℕ) : ℝ) = 2 ^ 32 := by norm_num [M]
    rw [hMR]
    push_cast
    ring
  have hδ : (0:ℝ) ≤ π / 2 ^ 33 := by positivity
  have h17 : (0:ℝ) ≤ π / 2 ^ 17 := by positivity
  have hcomp : Real.sin (qangle (M - 1 - 4 * u))
      = Real.cos (qangle (4 * u) + π / 2 ^ 33) := by
    rw [qangle_complement (4 * u) h4u, Real.sin_pi_div_two_sub]
  obtain ⟨-, -, hacc⟩ := quarter_interp_bounds (4 * u) h4u
  obtain ⟨-, -, hacc'⟩ := quarter_interp_bounds (M - 1 - 4 * u) hsub
  have hcd : |Real.cos (qangle (4 * u) + π / 2 ^ 33) - Real.cos (qangle (4 * u))|
      ≤ π / 2 ^ 33 := by
    refine le_trans (cos_dist _ _) ?_
    rw [add_sub_cancel_left, abs_of_nonneg hδ]
  rw [hβ]
  rw [hcomp] at hacc'
  have hcospart : |quarter_interp (M - 1 - 4 * u) - Real.cos (qangle (4 * u))|
      ≤ π / 2 ^ 17 + π / 2 ^ 33 :=
    calc |quarter_interp (M - 1 - 4 * u) - Real.cos (qangle (4 * u))|
        ≤ |quarter_interp (M - 1 - 4 * u)
              - Real.cos (qangle (4 * u) + π / 2 ^ 33)|
            + |Real.cos (qangle (4 * u) + π / 2 ^ 33)
                - Real.cos (qangle (4 * u))| := abs_sub_le _ _ _
      _ ≤ π / 2 ^ 17 + π / 2 ^ 33 := by linarith [hacc', hcd]
  interval_cases q
  · rw [if_neg (by norm_num), if_neg (by norm_num), one_mul,
      show ((0 : ℕ) : ℝ) * (π / 2) + qangle (4 * u) = qangle (4 * u) by
        push_cast; ring]
    linarith [hacc]
  · rw [if_neg (by norm_num), if_pos (by norm_num), one_mul,
      show ((1 : ℕ) : ℝ) * (π / 2) + qangle (4 * u) = qangle (4 * u) + π / 2 by
        push_cast; ring,
      Real.sin_add_pi_div_two]
    exact hcospart
  · rw [if_pos (by norm_num), if_neg (by norm_num), neg_one_mul,
      show ((2 : ℕ) : ℝ) * (π / 2) + qangle (4 * u) = qangle (4 * u) + π by
        push_cast; ring,
      Real.sin_add_pi,
      show -quarter_interp (4 * u) - -Real.sin (qangle (4 * u))
        = -(quarter_interp (4 * u) - Real.sin (qangle (4 * u))) by ring, abs_neg]
    linarith [hacc]
  · rw [if_pos (by norm_num), if_pos (by norm_num), neg_one_mul,
      show ((3 : ℕ) : ℝ) * (π / 2) + qangle (4 * u)
          = (qangle (4 * u) + π / 2) + π by push_cast; ring,
      Real.sin_add_pi, Real.sin_add_pi_div_two,
      show -quarter_interp (M - 1 - 4 * u) - -Real.cos (qangle (4 * u))
        = -(quarter_interp (M - 1 - 4 * u) - Real.cos (qangle (4 * u))) by ring,
      abs_neg]
    exact hcospart

/-- The table sine stays within `[-1, 1]` (linear interpolation between
nonnegative samples below the concave arc, then a sign). -/
lemma phase_sin_range (p : ℕ) : -1 ≤ phase_sin p ∧ phase_sin p ≤ 1 := by
  rw [← phase_sin_mod p]
  have hpm : p % M < M := Nat.mod_lt _ (by norm_num [M])
  rw [phase_sin_eq (p % M) hpm]
  have h4u : 4 * (p % M % 2 ^ 30) < M := by simp only [M]; omega
  have hsub : M - 1 - 4 * (p % M % 2 ^ 30) < M := by simp only [M]; omega
  split_ifs with hsgn hpar hpar
  · obtain ⟨h0, h1, -⟩ := quarter_interp_bounds _ hsub
    have := Real.sin_le_one (qangle (M - 1 - 4 * (p % M % 2 ^ 30)))
    constructor <;> nlinarith
  · obtain ⟨h0, h1, -⟩ := quarter_interp_bounds _ h4u
    have := Real.sin_le_one (qangle (4 * (p % M % 2 ^ 30)))
    constructor <;> nlinarith
  · obtain ⟨h0, h1, -⟩ := quarter_interp_bounds _ hsub
    have := Real.sin_le_one (qangle (M - 1 - 4 * (p % M % 2 ^ 30)))
    constructor <;> nlinarith
  · obtain ⟨h0, h1, -⟩ := quarter_interp_bounds _ h4u
    have := Real.sin_le_one (qangle (4 * (p % M % 2 ^ 30)))
    constructor <;> nlinarith

/-- The table cosine stays within `[-1, 1]`. -/
lemma phase_cos_range (p : ℕ) : -1 ≤ phase_cos p ∧ phase_cos p ≤ 1 := by
  simp only [phase_cos]
  exact phase_sin_range _

/-- Accuracy of the table cosine over a full turn. -/
lemma phase_cos_accuracy (p : ℕ) (hp : p < M) :
    |phase_cos p - Real.cos (exact_angle p)| ≤ π / 2 ^ 17 + π / 2 ^ 33 := by
  simp only [phase_cos]
  have hp2 : (p + 2 ^ 30) % M < M := Nat.mod_lt _ (by norm_num [M])
  have h := phase_sin_accuracy _ hp2
  have hMR : ((M : ℕ) : ℝ) = 2 ^ 32 := by norm_num [M]
  have hkey : Real.sin (exact_angle ((p + 2 ^ 30) % M)) = Real.cos (exact_angle p) := by
    rcases lt_or_ge (p + 2 ^ 30) M with hlt | hge
    · rw [Nat.mod_eq_of_lt hlt, exact_angle, exact_angle, hMR]
      push_cast
      rw [show ((p : ℝ) + 1073741824) / 2 ^ 32 * (2 * π)
          = (p : ℝ) / 2 ^ 32 * (2 * π) + π / 2 by ring, Real.sin_add_pi_div_two]
    · have he : (p + 2 ^ 30) % M = p + 2 ^ 30 - M := by
        simp only [M] at *
        omega
      rw [he, exact_angle, exact_angle, Nat.cast_sub hge, hMR]
      push_cast
      rw [show ((p : ℝ) + 1073741824 - 2 ^ 32) / 2 ^ 32 * (2 * π)
          = ((p : ℝ) / 2 ^ 32 * (2 * π) + π / 2) - 2 * π by ring,
        Real.sin_sub_two_pi, Real.sin_add_pi_div_two]
  rw [← hkey]
  exact h

/-- The accuracy budget of the model is below the contract bound. -/
lemma accuracy_err_lt : π / 2 ^ 17 + π / 2 ^ 33 < 1e-4 := by
  have hπ := Real.pi_lt_d2
  linarith

/-- C4: for every 32-bit phase, the table sine and cosine are within
`[-1, 1]` and within `1e-4` of the exact sine/cosine of
`phase / 2^32 * 2π`. -/
theorem claim_C4 (p : ℕ) (hp : p < M) :
    (-1 ≤ phase_sin p ∧ phase_sin p ≤ 1
        ∧ |phase_sin p - Real.sin ((p : ℝ) / 2 ^ 32 * (2 * π))| < 1e-4)
      ∧ (-1 ≤ phase_cos p ∧ phase_cos p ≤ 1
        ∧ |phase_cos p - Real.cos ((p : ℝ) / 2 ^ 32 * (2 * π))| < 1e-4) := by
  have hE : exact_angle p = (p : ℝ) / 2 ^ 32 * (2 * π) := by
    rw [exact_angle]
    norm_num [M]
  obtain ⟨hs1, hs2⟩ := phase_sin_range p
  obtain ⟨hc1, hc2⟩ := phase_cos_range p
  have ha := phase_sin_accuracy p hp
  have hb := phase_cos_accuracy p hp
  rw [hE] at ha hb
  exact ⟨⟨hs1, hs2, lt_of_le_of_lt ha accuracy_err_lt⟩,
    ⟨hc1, hc2, lt_of_le_of_lt hb accuracy_err_lt⟩⟩

/-- C4 witness: phase 0. -/
theorem claim_C4_witness :
    (0 : ℕ) < M ∧ |phase_sin 0 - Real.sin (((0 : ℕ) : ℝ) / 2 ^ 32 * (2 * π))| < 1e-4 :=
  ⟨by norm_num [M], (claim_C4 0 (by norm_num [M])).1.2.2⟩

/-! ### The order parameter -/

/-- At complementary inner phases (which is how sine and cosine of one
oscillator phase always pair up), the two interpolated values satisfy the
Pythagorean bound. -/
lemma interp_complement_sq (u : ℕ) (hu : u < 2 ^ 30) :
    quarter_interp (4 * u) ^ 2 + quarter_interp (M - 1 - 4 * u) ^ 2 ≤ 1 := by
  have h4u : 4 * u < M := by simp only [M]; omega
  have hsub : M - 1 - 4 * u < M := by simp only [M]; omega
  obtain ⟨ha0, ha1, -⟩ := quarter_interp_bounds (4 * u) h4u
  obtain ⟨hb0, hb1, -⟩ := quarter_interp_bounds (M - 1 - 4 * u) hsub
  have hcomp : Real.sin (qangle (M - 1 - 4 * u))
      = Real.cos (qangle (4 * u) + π / 2 ^ 33) := by
    rw [qangle_complement (4 * u) h4u, Real.sin_pi_div_two_sub]
  rw [hcomp] at hb1
  have hγ0 : 0 ≤ qangle (4 * u) := by rw [qangle]; positivity
  have hγδ : qangle (4 * u) + π / 2 ^ 33 ≤ π / 2 := by
    have h1 : (4 * u : ℝ) + 1 ≤ 2 ^ 32 := by exact_mod_cast h4u
    have h2 := mul_le_mul_of_nonneg_right h1
      (show (0:ℝ) ≤ π / 2 / 2 ^ 32 by positivity)
    calc qangle (4 * u) + π / 2 ^ 33
        = ((4 * u : ℝ) + 1) * (π / 2 / 2 ^ 32) := by rw [qangle]; push_cast; ring
      _ ≤ 2 ^ 32 * (π / 2 / 2 ^ 32) := h2
      _ = π / 2 := by ring
  have hδ0 : 0 ≤ qangle (4 * u) + π / 2 ^ 33 := by positivity
  have hpi := Real.pi_pos
  have hcosmono : Real.cos (qangle (4 * u) + π / 2 ^ 33)
      ≤ Real.cos (qangle (4 * u)) :=
    Real.cos_le_cos_of_nonneg_of_le_pi hγ0 (by linarith) (by linarith)
  have hcos0 : 0 ≤ Real.cos (qangle (4 * u) + π / 2 ^ 33) :=
    Real.cos_nonneg_of_mem_Icc ⟨by linarith, hγδ⟩
  have h1 : quarter_interp (4 * u) ^ 2 ≤ Real.sin (qangle (4 * u)) ^ 2 :=
    pow_le_pow_left₀ ha0 ha1 2
  have h2 : quarter_interp (M - 1 - 4 * u) ^ 2
      ≤ Real.cos (qangle (4 * u) + π / 2 ^ 33) ^ 2 :=
    pow_le_pow_left₀ hb0 hb1 2
  have h3 : Real.cos (qangle (4 * u) + π / 2 ^ 33) ^ 2
      ≤ Real.cos (qangle (4 * u)) ^ 2 :=
    pow_le_pow_left₀ hcos0 hcosmono 2
  have hpy := Real.sin_sq_add_cos_sq (qangle (4 * u))
  linarith

set_option maxHeartbeats 1000000 in
/-- For any in-range phase, the table cosine and sine of one oscillator lie
inside the unit circle. -/
lemma phase_pyth_lt (p : ℕ) (hp : p < M) :
    phase_cos p ^ 2 + phase_sin p ^ 2 ≤ 1 := by
  have hp' : p < 2 ^ 32 := hp
  obtain ⟨q, u, hq, hu, rfl⟩ :
      ∃ q u, q < 4 ∧ u < 2 ^ 30 ∧ p = q * 2 ^ 30 + u :=
    ⟨p / 2 ^ 30, p % 2 ^ 30, by omega, by omega, by omega⟩
  have hcsq := interp_complement_sq u hu
  simp only [phase_cos]
  interval_cases q
  · have hc : (0 * 2 ^ 30 + u + 2 ^ 30) % M = 1 * 2 ^ 30 + u := by
      simp only [M]; omega
    rw [hc, phase_sin_quadrant 1 u (by norm_num) hu,
      phase_sin_quadrant 0 u (by norm_num) hu]
    norm_num
    nlinarith [hcsq]
  · have hc : (1 * 2 ^ 30 + u + 2 ^ 30) % M = 2 * 2 ^ 30 + u := by
      simp only [M]; omega
    rw [hc, phase_sin_quadrant 2 u (by norm_num) hu,
      phase_sin_quadrant 1 u (by norm_num) hu]
    norm_num
    nlinarith [hcsq]
  · have hc : (2 * 2 ^ 30 + u + 2 ^ 30) % M = 3 * 2 ^ 30 + u := by
      simp only [M]; omega
    rw [hc, phase_sin_quadrant 3 u (by norm_num) hu,
      phase_sin_quadrant 2 u (by norm_num) hu]
    norm_num
    nlinarith [hcsq]
  · have hc : (3 * 2 ^ 30 + u + 2 ^ 30) % M = 0 * 2 ^ 30 + u := by
      simp only [M]; omega
    rw [hc, phase_sin_quadrant 0 u (by norm_num) hu,
      phase_sin_quadrant 3 u (by norm_num) hu]
    norm_num
    nlinarith [hcsq]

/-- The Pythagorean bound at an arbitrary phase. -/
lemma phase_pyth (p : ℕ) : phase_cos p ^ 2 + phase_sin p ^ 2 ≤ 1 := by
  rw [← phase_cos_mod p, ← phase_sin_mod p]
  exact phase_pyth_lt (p % M) (Nat.mod_lt _ (by norm_num [M]))

/-- The magnitude of the mean of `n` vectors inside the unit disc is at most
one. -/
lemma mean_radius_le_one (n : ℕ) (hn : 0 < n) (f g : ℕ → ℝ)
    (hb : ∀ i, f i ^ 2 + g i ^ 2 ≤ 1) :
    Real.sqrt (((∑ i ∈ Finset.range n, f i) / (n : ℝ)) ^ 2
      + ((∑ i ∈ Finset.range n, g i) / (n : ℝ)) ^ 2) ≤ 1 := by
  set z : ℕ → ℂ := fun i => (f i : ℂ) + (g i : ℂ) * Complex.I with hz
  have hre : (∑ i ∈ Finset.range n, z i).re = ∑ i ∈ Finset.range n, f i := by
    rw [Complex.re_sum]
    refine Finset.sum_congr rfl fun i _ => ?_
    simp [hz]
  have him : (∑ i ∈ Finset.range n, z i).im = ∑ i ∈ Finset.range n, g i := by
    rw [Complex.im_sum]
    refine Finset.sum_congr rfl fun i _ => ?_
    simp [hz]
  have habs1 : ∀ i ∈ Finset.range n, Complex.abs (z i) ≤ 1 := by
    intro i _
    rw [hz]
    rw [Complex.abs_apply, Complex.normSq_add_mul_I]
    exact (Real.sqrt_le_left (by norm_num)).2 (by simpa using hb i)
  have hs : Complex.abs (∑ i ∈ Finset.range n, z i) ≤ (n : ℝ) := by
    refine le_trans (Complex.abs.sum_le _ _) ?_
    calc ∑ i ∈ Finset.range n, Complex.abs (z i)
        ≤ ∑ _i ∈ Finset.range n, (1 : ℝ) := Finset.sum_le_sum habs1
      _ = (n : ℝ) := by simp
  have hsq : (∑ i ∈ Finset.range n, f i) ^ 2 + (∑ i ∈ Finset.range n, g i) ^ 2
      ≤ (n : ℝ) ^ 2 := by
    have h1 : Complex.abs (∑ i ∈ Finset.range n, z i) ^ 2 ≤ (n : ℝ) ^ 2 :=
      pow_le_pow_left₀ (AbsoluteValue.nonneg _ _) hs 2
    rw [Complex.sq_abs, Complex.normSq_apply, hre, him] at h1
    nlinarith [h1]
  have hnR : (0:ℝ) < (n : ℝ) := by exact_mod_cast hn
  refine (Real.sqrt_le_left (by norm_num)).2 ?_
  rw [div_pow, div_pow, div_add_div_same, one_pow, div_le_one (by positivity)]
  calc (∑ i ∈ Finset.range n, f i) ^ 2 + (∑ i ∈ Finset.range n, g i) ^ 2
      ≤ (n : ℝ) ^ 2 := hsq
    _ = (n : ℝ) ^ 2 * 1 := by ring
    _ = (n : ℝ) ^ 2 := by ring

/-- C5: for a group with `1 ≤ count ≤ 8`, the order parameter is the
magnitude of the average unit vector of the active oscillators' table-based
cosines and sines, and it lies in `[0, 1]`. -/
theorem claim_C5 (g : coupled_lfo_group) (h1 : 1 ≤ g.count) (h8 : g.count ≤ 8) :
    coupled_lfo_order_parameter g
      = Real.sqrt
          (((∑ i ∈ Finset.range g.count, phase_cos ((g.lfos i).idx)) / (g.count : ℝ)) ^ 2
            + ((∑ i ∈ Finset.range g.count, phase_sin ((g.lfos i).idx)) / (g.count : ℝ)) ^ 2)
      ∧ 0 ≤ coupled_lfo_order_parameter g
      ∧ coupled_lfo_order_parameter g ≤ 1 := by
  have hne : g.count ≠ 0 := by omega
  have hform : coupled_lfo_order_parameter g
      = Real.sqrt
          (((∑ i ∈ Finset.range g.count, phase_cos ((g.lfos i).idx)) / (g.count : ℝ)) ^ 2
            + ((∑ i ∈ Finset.range g.count, phase_sin ((g.lfos i).idx)) / (g.count : ℝ)) ^ 2) := by
    simp only [coupled_lfo_order_parameter, if_neg hne]
    rw [← pow_two, ← pow_two]
  refine ⟨hform, ?_, ?_⟩
  · rw [hform]; exact Real.sqrt_nonneg _
  · rw [hform]
    exact mean_radius_le_one g.count (by omega) _ _ fun i => by
      have := phase_pyth ((g.lfos i).idx)
      linarith

/-- Concrete one-oscillator group for the C5 witness. -/
noncomputable def gW5 : coupled_lfo_group := ⟨fun _ => ⟨12345, 1⟩, 1, 0⟩

/-- C5 witness: the one-oscillator group `gW5`. -/
theorem claim_C5_witness :
    1 ≤ gW5.count ∧ gW5.count ≤ 8 ∧ coupled_lfo_order_parameter gW5 ≤ 1 :=
  ⟨by norm_num [gW5], by norm_num [gW5],
    (claim_C5 gW5 (by norm_num [gW5]) (by norm_num [gW5])).2.2⟩

/-- Lower bound for a single table unit vector: its squared length exceeds
`0.999^2` (accuracy of the table keeps it near the unit circle). -/
lemma unit_norm_lb (p : ℕ) :
    0.998001 < phase_cos p * phase_cos p + phase_sin p * phase_sin p := by
  rw [← phase_cos_mod p, ← phase_sin_mod p]
  have hpmlt : p % M < M := Nat.mod_lt _ (by norm_num [M])
  have hc := phase_cos_accuracy (p % M) hpmlt
  have hs := phase_sin_accuracy (p % M) hpmlt
  have hB := accuracy_err_lt
  set θ := exact_angle (p % M) with hθ
  have hpy := Real.sin_sq_add_cos_sq θ
  have hc1 := Real.cos_le_one θ
  have hc2 := Real.neg_one_le_cos θ
  have hs1 := Real.sin_le_one θ
  have hs2 := Real.neg_one_le_sin θ
  obtain ⟨hcl, hcu⟩ := abs_le.mp hc
  obtain ⟨hsl, hsu⟩ := abs_le.mp hs
  have e1 : (0:ℝ) ≤ (π / 2 ^ 17 + π / 2 ^ 33)
      + (phase_cos (p % M) - Real.cos θ) := by linarith
  have e2 : (0:ℝ) ≤ (π / 2 ^ 17 + π / 2 ^ 33)
      - (phase_cos (p % M) - Real.cos θ) := by linarith
  have e3 : (0:ℝ) ≤ 1 + Real.cos θ := by linarith
  have e4 : (0:ℝ) ≤ 1 - Real.cos θ := by linarith
  have f1 : (0:ℝ) ≤ (π / 2 ^ 17 + π / 2 ^ 33)
      + (phase_sin (p % M) - Real.sin θ) := by linarith
  have f2 : (0:ℝ) ≤ (π / 2 ^ 17 + π / 2 ^ 33)
      - (phase_sin (p % M) - Real.sin θ) := by linarith
  have f3 : (0:ℝ) ≤ 1 + Real.sin θ := by linarith
  have f4 : (0:ℝ) ≤ 1 - Real.sin θ := by linarith
  nlinarith [hpy, hB, mul_nonneg e1 e3, mul_nonneg e2 e4, mul_nonneg f1 f3,
    mul_nonneg f2 f4, sq_nonneg (phase_cos (p % M) - Real.cos θ),
    sq_nonneg (phase_sin (p % M) - Real.sin θ)]

/-- C6: the order parameter's required edge cases: an empty group reports
exactly 0, regardless of coupling or slot contents; a one-oscillator group
reports more than `0.999` regardless of its phase, hence before and after
any amount of stepping. -/
theorem claim_C6 (g : coupled_lfo_group) :
    (g.count = 0 → coupled_lfo_order_parameter g = 0)
      ∧ (g.count = 1 → 0.999 < coupled_lfo_order_parameter g) := by
  constructor
  · intro h0
    simp only [coupled_lfo_order_parameter, if_pos h0]
  · intro h1
    simp only [coupled_lfo_order_parameter, h1, if_neg (one_ne_zero),
      Finset.sum_range_one, Nat.cast_one, div_one]
    have hlb := unit_norm_lb ((g.lfos 0).idx)
    rw [show (0.999 : ℝ) = Real.sqrt (0.999 ^ 2) from
      (Real.sqrt_sq (by norm_num)).symm]
    apply Real.sqrt_lt_sqrt (by norm_num)
    nlinarith [hlb]

/-- C6 witness: a concrete empty group and a concrete singleton group. -/
theorem claim_C6_witness :
    coupled_lfo_order_parameter ⟨fun _ => ⟨0, 1⟩, 0, 1⟩ = 0
      ∧ 0.999 < coupled_lfo_order_parameter ⟨fun _ => ⟨77, 1⟩, 1, 1⟩ :=
  ⟨(claim_C6 ⟨fun _ => ⟨0, 1⟩, 0, 1⟩).1 rfl,
    (claim_C6 ⟨fun _ => ⟨77, 1⟩, 1, 1⟩).2 rfl⟩

/-! ### Oddness of the table sine (claim C3) -/

/-- The table sine of phase 0 is exactly 0. -/
lemma phase_sin_zero : phase_sin 0 = 0 := by
  rw [phase_sin_eq 0 (by norm_num [M])]
  norm_num [quarter_interp, quarter_sin]

/-- C3 counterexample: the table sine is *not* exactly odd on wrapped
differences.  At `p = 1, q = 0` the two inner phases after the quadrant
logic are 4 and 3 (the `~` complement is one ulp off an exact negation), so
the interpolated magnitudes differ. -/
theorem claim_C3_cex :
    phase_sin (phase_diff 1 0) ≠ -phase_sin (phase_diff 0 1) := by
  have h1 : phase_diff 1 0 = 1 := by simp only [phase_diff, M]; omega
  have h2 : phase_diff 0 1 = 2 ^ 32 - 1 := by simp only [phase_diff, M]; omega
  rw [h1, h2]
  have hq0 : quarter_sin 0 = 0 := by norm_num [quarter_sin]
  have hQN : ((QN : ℕ) : ℝ) = 2 ^ 15 := by norm_num [QN, QUARTER_SINE_STEP_SHIFT]
  have hs : 0 < quarter_sin 1 := by
    rw [quarter_sin, hQN]
    apply Real.sin_pos_of_pos_of_lt_pi
    · positivity
    · nlinarith [Real.pi_pos]
  have e1 : phase_sin 1 = quarter_sin 1 * (4 / 2 ^ 17) := by
    rw [phase_sin_eq 1 (by norm_num [M])]
    norm_num [quarter_interp, M, hq0]
  have e2 : phase_sin (2 ^ 32 - 1) = -(quarter_sin 1 * (3 / 2 ^ 17)) := by
    rw [phase_sin_eq (2 ^ 32 - 1) (by norm_num [M])]
    norm_num [quarter_interp, M, hq0]
  rw [e1, e2]
  intro h
  nlinarith [h, hs]

/-- C3 (amended): on wrapped phase differences the table sine is odd only up
to the lookup interpolation error: the two values cancel to within `1e-4`
(so, summed over a complete group at one instant, the per-oscillator
coupling adjustments cancel up to rounding and interpolation error). -/
theorem claim_C3 (p q : ℕ) :
    |phase_sin (phase_diff p q) + phase_sin (phase_diff q p)| < 1e-4 := by
  have hd1 : phase_diff p q < M := Nat.mod_lt _ (by norm_num [M])
  have hd2 : phase_diff q p < M := Nat.mod_lt _ (by norm_num [M])
  have hcase : (phase_diff p q = 0 ∧ phase_diff q p = 0)
      ∨ (0 < phase_diff p q ∧ phase_diff q p = M - phase_diff p q) := by
    simp only [phase_diff, M]
    omega
  rcases hcase with ⟨h1, h2⟩ | ⟨h1, h2⟩
  · rw [h1, h2, phase_sin_zero]
    norm_num
  · have ha := phase_sin_accuracy _ hd1
    have hb := phase_sin_accuracy _ hd2
    have hM0 : ((M : ℕ) : ℝ) ≠ 0 := by norm_num [M]
    have hsum : Real.sin (exact_angle (phase_diff q p))
        = -Real.sin (exact_angle (phase_diff p q)) := by
      rw [h2, exact_angle, exact_angle, Nat.cast_sub (le_of_lt hd1)]
      rw [show (((M : ℕ) : ℝ) - (phase_diff p q : ℝ)) / ((M : ℕ) : ℝ) * (2 * π)
          = 2 * π - (phase_diff p q : ℝ) / ((M : ℕ) : ℝ) * (2 * π) by
        field_simp
        ring]
      rw [Real.sin_two_pi_sub]
    calc |phase_sin (phase_diff p q) + phase_sin (phase_diff q p)|
        = |(phase_sin (phase_diff p q) - Real.sin (exact_angle (phase_diff p q)))
            + (phase_sin (phase_diff q p)
              - Real.sin (exact_angle (phase_diff q p)))| := by
          rw [hsum]; ring_nf
      _ ≤ |phase_sin (phase_diff p q) - Real.sin (exact_angle (phase_diff p q))|
            + |phase_sin (phase_diff q p)
              - Real.sin (exact_angle (phase_diff q p))| := abs_add _ _
      _ < 1e-4 := by
          have := Real.pi_lt_d2
          linarith

/-! ### The coupled step formula (claim C1) -/

set_option maxHeartbeats 1000000 in
/-- C1 (amended): with strictly positive coupling and `2 ≤ count ≤ 8`, one
coupled step advances the phase of oscillator `idx` by its own increment
plus the coupling adjustment `coupling * S / count * increment`, truncated
toward zero (the C cast `(s32)`), where `S` is the sum over the other
active oscillators of the table sine of the wrapped phase differences. -/
theorem claim_C1 (g : coupled_lfo_group) (idx : ℕ) (t : lfo_type)
    (hk : 0 < g.coupling) (h2 : 2 ≤ g.count) (h8 : g.count ≤ 8)
    (hidx : idx < g.count) :
    ((coupled_lfo_step g idx t).1.lfos idx).idx
      = ((((g.lfos idx).idx : ℤ) + ((g.lfos idx).step : ℤ)
          + c_trunc (g.coupling
              * (∑ j ∈ (Finset.range g.count).erase idx,
                  phase_sin (phase_diff ((g.lfos j).idx) ((g.lfos idx).idx)))
              / (g.count : ℝ) * ((g.lfos idx).step : ℝ)))
        % (M : ℤ)).toNat := by
  have hcond : 0 < g.coupling ∧ 1 < g.count := ⟨hk, by omega⟩
  simp only [coupled_lfo_step, if_pos hcond, lfo_step, Function.update_same,
    coupling_sum]
  have hMZ : ((M : ℕ) : ℤ) = 4294967296 := by norm_num [M]
  have hMN : M = 4294967296 := by norm_num [M]
  rw [hMZ, hMN]
  omega

/-- Two-oscillator group with negative coupling `-1`, phases `0` and a
quarter turn, used to exhibit that claim C1's "nonzero coupling" does not
match the code's `coupling > 0` guard. -/
noncomputable def gA : coupled_lfo_group :=
  ⟨fun j => if j = 0 then ⟨0, 3⟩ else ⟨2 ^ 30, 1⟩, 2, -1⟩

/-- Two-oscillator group with coupling `3/2`, phases `0` and a quarter
turn, used to exhibit that the code truncates (rather than rounds) the
coupling adjustment. -/
noncomputable def gB : coupled_lfo_group :=
  ⟨fun j => if j = 0 then ⟨0, 1⟩ else ⟨2 ^ 30, 1⟩, 2, 3 / 2⟩

/-- The table sine of a quarter turn is close to (and at most) one. -/
lemma phase_sin_quarter_bounds :
    0.9999 ≤ phase_sin 1073741824 ∧ phase_sin 1073741824 ≤ 1 := by
  have hacc := phase_sin_accuracy 1073741824 (by norm_num [M])
  have hEA : exact_angle 1073741824 = π / 2 := by
    rw [exact_angle]
    have hMR : ((M : ℕ) : ℝ) = 2 ^ 32 := by norm_num [M]
    rw [hMR]
    push_cast
    ring
  rw [hEA, Real.sin_pi_div_two] at hacc
  obtain ⟨hl, hu⟩ := abs_le.mp hacc
  have hπ := Real.pi_lt_d2
  exact ⟨by linarith, (phase_sin_range _).2⟩

/-- The coupling sum seen by oscillator 0 of `gA`. -/
lemma coupling_sum_gA : coupling_sum gA 0 = phase_sin 1073741824 := by
  have hr : (Finset.range 2).erase 0 = {1} := by decide
  have hd : phase_diff 1073741824 0 = 1073741824 := by simp only [phase_diff, M]; omega
  rw [coupling_sum]
  simp only [gA]
  rw [hr, Finset.sum_singleton]
  norm_num [hd]

/-- The coupling sum seen by oscillator 0 of `gB`. -/
lemma coupling_sum_gB : coupling_sum gB 0 = phase_sin 1073741824 := by
  have hr : (Finset.range 2).erase 0 = {1} := by decide
  have hd : phase_diff 1073741824 0 = 1073741824 := by simp only [phase_diff, M]; omega
  rw [coupling_sum]
  simp only [gB]
  rw [hr, Finset.sum_singleton]
  norm_num [hd]

set_option maxHeartbeats 1000000 in
/-- C1 counterexample: the claim, read as stated, predicts the wrong phase
on two concrete groups.  On `gB` (coupling `3/2`) the code truncates the
adjustment `0.7499…` to 0 where the claim's `round` gives 1; on `gA`
(coupling `-1`) the code skips coupling entirely (its guard is
`coupling > 0`, not `coupling ≠ 0`) while the claim still applies a nonzero
rounded adjustment. -/
theorem claim_C1_cex :
    ((coupled_lfo_step gB 0 .lfo_sinewave).1.lfos 0).idx ≠ claimC1_phase gB 0
      ∧ ((coupled_lfo_step gA 0 .lfo_sinewave).1.lfos 0).idx ≠ claimC1_phase gA 0 := by
  obtain ⟨hSl, hSu⟩ := phase_sin_quarter_bounds
  constructor
  · have hcond : 0 < gB.coupling ∧ 1 < gB.count := by norm_num [gB]
    have hcodeB : ((coupled_lfo_step gB 0 .lfo_sinewave).1.lfos 0).idx = 1 := by
      simp only [coupled_lfo_step, if_pos hcond, lfo_step, Function.update_same,
        coupling_sum_gB]
      have htr : c_trunc (gB.coupling * phase_sin 1073741824 / (gB.count : ℝ)
          * ((gB.lfos 0).step : ℝ)) = 0 := by
        have hx : gB.coupling * phase_sin 1073741824 / (gB.count : ℝ)
            * ((gB.lfos 0).step : ℝ) = 3 / 2 * phase_sin 1073741824 / 2 := by
          norm_num [gB]
        rw [hx, c_trunc, if_pos (by linarith)]
        rw [Int.floor_eq_zero_iff]
        constructor
        · linarith
        · linarith
      rw [htr]
      norm_num [gB, M, Int.toNat_zero, Int.toNat_ofNat]
    have hclaimB : claimC1_phase gB 0 = 2 := by
      have hcond2 : gB.coupling ≠ 0 ∧ 2 ≤ gB.count := by norm_num [gB]
      rw [claimC1_phase, if_pos hcond2, coupling_sum_gB]
      have hrd : c_round (gB.coupling * phase_sin 1073741824 / (gB.count : ℝ)
          * ((gB.lfos 0).step : ℝ)) = 1 := by
        have hx : gB.coupling * phase_sin 1073741824 / (gB.count : ℝ)
            * ((gB.lfos 0).step : ℝ) = 3 / 2 * phase_sin 1073741824 / 2 := by
          norm_num [gB]
        rw [hx, c_round, Int.floor_eq_iff]
        constructor
        · push_cast; linarith
        · push_cast; linarith
      rw [hrd]
      norm_num [gB, M, Int.toNat_zero, Int.toNat_ofNat]
      rfl
    rw [hcodeB, hclaimB]
    norm_num
  · have hncond : ¬(0 < gA.coupling ∧ 1 < gA.count) := by
      intro hc
      have : (0:ℝ) < -1 := by simpa [gA] using hc.1
      linarith
    have hcodeA : ((coupled_lfo_step gA 0 .lfo_sinewave).1.lfos 0).idx = 3 := by
      rw [coupled_lfo_step_uncoupled gA 0 _ hncond]
      simp only [Function.update_same, lfo_step]
      norm_num [gA, M]
    have hclaimA : claimC1_phase gA 0 = 2 := by
      have hcond2 : gA.coupling ≠ 0 ∧ 2 ≤ gA.count := by norm_num [gA]
      rw [claimC1_phase, if_pos hcond2, coupling_sum_gA]
      have hrd : c_round (gA.coupling * phase_sin 1073741824 / (gA.count : ℝ)
          * ((gA.lfos 0).step : ℝ)) = -1 := by
        have hx : gA.coupling * phase_sin 1073741824 / (gA.count : ℝ)
            * ((gA.lfos 0).step : ℝ) = -1 * phase_sin 1073741824 / 2 * 3 := by
          norm_num [gA]
        rw [hx, c_round, Int.floor_eq_iff]
        constructor
        · push_cast; linarith
        · push_cast; linarith
      rw [hrd]
      norm_num [gA, M, Int.toNat_zero, Int.toNat_ofNat]
      rfl
    rw [hcodeA, hclaimA]
    norm_num

/-- Concrete group for the C1 witness: two oscillators at equal phase,
coupling 1. -/
noncomputable def gW1 : coupled_lfo_group := ⟨fun _ => ⟨9, 4⟩, 2, 1⟩

/-- C1 witness: the amended step formula at the group `gW1`, index 0. -/
theorem claim_C1_witness :
    0 < gW1.coupling ∧ 2 ≤ gW1.count ∧ gW1.count ≤ 8 ∧ 0 < gW1.count ∧
      ((coupled_lfo_step gW1 0 .lfo_sinewave).1.lfos 0).idx
        = ((((gW1.lfos 0).idx : ℤ) + ((gW1.lfos 0).step : ℤ)
            + c_trunc (gW1.coupling
                * (∑ j ∈ (Finset.range gW1.count).erase 0,
                    phase_sin (phase_diff ((gW1.lfos j).idx) ((gW1.lfos 0).idx)))
                / (gW1.count : ℝ) * ((gW1.lfos 0).step : ℝ)))
          % (M : ℤ)).toNat :=
  ⟨by norm_num [gW1], by norm_num [gW1], by norm_num [gW1], by norm_num [gW1],
    claim_C1 gW1 0 .lfo_sinewave (by norm_num [gW1]) (by norm_num [gW1])
      (by norm_num [gW1]) (by norm_num [gW1])⟩

end AudioNoise
